import Mathlib

/-!
Shallow embedding of the record-store core of
`src/01_Languages/C/data-structures-algorithms.c`: the `Developer` record
type, the linked-list Sequential Store, the dynamic-array Indexed Store
with its quicksort, the chained Hash Index, and the Validator with safe
insertion.  Machine floats (the `salary` field) are modelled by `Int`
with the usual linear order; C `int` is modelled by `Int` (no overflow is
relevant to the properties below); the C `unsigned int` conversion in
`hash` is modelled explicitly by reduction modulo `2 ^ 32`.
-/

namespace CDemo

/-- The `Developer` struct: id, name, email, skills, salary. -/
structure Developer where
  id : Int
  name : String
  email : String
  skills : String
  salary : Int
deriving DecidableEq

instance : Inhabited Developer := ⟨⟨0, "", "", "", 0⟩⟩

/-- The `LinkedList` struct: `head` is the chain of nodes from the head
pointer (each node holding one record), `size` the stored counter. -/
structure LinkedList where
  head : List Developer
  size : Int
deriving DecidableEq

/-- `createLinkedList`: empty chain, size 0. -/
def createLinkedList : LinkedList := ⟨[], 0⟩

/-- `insertDeveloper`: a new node holding `dev` becomes the new head;
size is incremented.  The `printf` call is I/O only and is not modelled. -/
def insertDeveloper (list : LinkedList) (dev : Developer) : LinkedList :=
  ⟨dev :: list.head, list.size + 1⟩

/-- `findDeveloperById`: linear scan from the head, first node whose
`data.id` equals `id` wins; `NULL` becomes `none`. -/
def findDeveloperById (list : LinkedList) (id : Int) : Option Developer :=
  list.head.find? (fun d => d.id == id)

/-- Folding `insertDeveloper` over a list of records, in order (used to
state properties quantified over insertion sequences). -/
def insertAll (list : LinkedList) (devs : List Developer) : LinkedList :=
  devs.foldl insertDeveloper list

/-- The `DynamicArray` struct: `developers` is the meaningful prefix of
the buffer (the first `size` slots), `capacity` the allocated slot count. -/
structure DynamicArray where
  developers : List Developer
  capacity : Int
  size : Int
deriving DecidableEq

/-- `createDynamicArray`: empty contents, the requested capacity, size 0. -/
def createDynamicArray (initialCapacity : Int) : DynamicArray :=
  ⟨[], initialCapacity, 0⟩

/-- `resizeArray`: doubles the capacity; `realloc` preserves the existing
elements (the fatal-allocation-failure exit is not modelled). -/
def resizeArray (arr : DynamicArray) : DynamicArray :=
  ⟨arr.developers, arr.capacity * 2, arr.size⟩

/-- `addDeveloper`: grow when full, then write `dev` into slot `size` and
increment `size`. -/
def addDeveloper (arr : DynamicArray) (dev : Developer) : DynamicArray :=
  let arr1 := if arr.capacity ≤ arr.size then resizeArray arr else arr
  ⟨arr1.developers ++ [dev], arr1.capacity, arr1.size + 1⟩

/-- Folding `addDeveloper` over a list of records, in order. -/
def appendAll (arr : DynamicArray) (devs : List Developer) : DynamicArray :=
  devs.foldl addDeveloper arr

/-- Salary stored at buffer position `k` (out-of-range reads yield the
default record, which never happens in the verified call sites). -/
def salAt (arr : List Developer) (k : Nat) : Int :=
  (arr.getD k default).salary

/-- The three-assignment swap `temp = arr[i]; arr[i] = arr[j]; arr[j] = temp`. -/
def swapL (l : List Developer) (i j : Nat) : List Developer :=
  match l[i]?, l[j]? with
  | some a, some b => (l.set i b).set j a
  | _, _ => l

/-- The `for (j = low; j <= high - 1; j++)` loop body of `partition`:
`cnt` counts the remaining iterations (`high - j` at entry), `i` is the
last index of the kept-left region, exactly as in the C source. -/
def partitionLoop (pivot : Int) (arr : List Developer) (i : Int) (j : Nat) :
    Nat → List Developer × Int
  | 0 => (arr, i)
  | cnt + 1 =>
    if pivot ≤ salAt arr j then
      partitionLoop pivot (swapL arr (i + 1).toNat j) (i + 1) (j + 1) cnt
    else
      partitionLoop pivot arr i (j + 1) cnt

/-- `partition`: Lomuto partition with `arr[high].salary` as pivot,
keeping elements with salary ≥ pivot on the left (descending order),
finishing with the swap of positions `i + 1` and `high`; returns the
final array and the pivot position `i + 1`. -/
def partition (arr : List Developer) (low high : Nat) : List Developer × Nat :=
  let pivot := salAt arr high
  let r := partitionLoop pivot arr ((low : Int) - 1) low (high - low)
  (swapL r.1 (r.2 + 1).toNat high, (r.2 + 1).toNat)

/-- `quickSort`: recursion on the range `[low, high]`, modelled with an
explicit fuel parameter (the C recursion has no structural argument);
fuel at least `high - low` makes the result fuel-independent, which is
proved below as the termination property. -/
def quickSort : Nat → List Developer → Int → Int → List Developer
  | 0, arr, _, _ => arr
  | fuel + 1, arr, low, high =>
    if low < high then
      let p := partition arr low.toNat high.toNat
      let a1 := quickSort fuel p.1 low ((p.2 : Int) - 1)
      quickSort fuel a1 ((p.2 : Int) + 1) high
    else arr

/-- `sortDevelopersBySalary`: quicksort of the whole buffer when more
than one element is stored; the fuel `arr.developers.length` is enough
for any store whose size equals its element count. -/
def sortDevelopersBySalary (arr : DynamicArray) : DynamicArray :=
  if 1 < arr.size then
    { arr with
      developers := quickSort arr.developers.length arr.developers 0 (arr.size - 1) }
  else arr

/-- `HASH_TABLE_SIZE`. -/
def HASH_TABLE_SIZE : Nat := 101

/-- `hash`: the C expression `key % 101` on a signed `int` (truncated
remainder, `Int.tmod`), implicitly converted to `unsigned int` by the
return type, i.e. reduced modulo `2 ^ 32`. -/
def hash (key : Int) : Nat :=
  ((key.tmod (HASH_TABLE_SIZE : Int)) % ((2 : Int) ^ 32)).toNat

/-- The `HashTable` struct: the bucket array, modelled as a map from the
bucket index to the chain (the C array has 101 slots; an index beyond
them would be an out-of-bounds access in the source). -/
structure HashTable where
  buckets : Nat → List (Int × Developer)

/-- `createHashTable`: every bucket empty. -/
def createHashTable : HashTable := ⟨fun _ => []⟩

/-- `hashInsert`: prepend a new (key, value) node to bucket `hash key`. -/
def hashInsert (table : HashTable) (key : Int) (dev : Developer) : HashTable :=
  ⟨fun idx => if idx = hash key then (key, dev) :: table.buckets idx else table.buckets idx⟩

/-- `hashSearch`: scan bucket `hash key` front to back for the first node
whose key equals `key`; `NULL` becomes `none`. -/
def hashSearch (table : HashTable) (key : Int) : Option Developer :=
  ((table.buckets (hash key)).find? (fun p => p.1 == key)).map (fun p => p.2)

/-- `validateDeveloper`: the chain of early-return checks from the C
source, in source order (the `dev == NULL` check disappears: records are
passed by value here; the `strchr` search is the scan of the character
sequence of the email for an `@`). -/
def validateDeveloper (dev : Developer) : Bool :=
  if dev.id ≤ 0 then false
  else if dev.name.length = 0 then false
  else if dev.email.length = 0 then false
  else if dev.salary < 0 then false
  else if !(dev.email.data.contains '@') then false
  else true

/-- `safeDeveloperInsert`: validation, then duplicate-id lookup, then
insertion; returns the C status code (-1 on both failure paths, 0 on
success) together with the resulting list state. -/
def safeDeveloperInsert (list : LinkedList) (dev : Developer) : Int × LinkedList :=
  if !validateDeveloper dev then (-1, list)
  else if (findDeveloperById list dev.id).isSome then (-1, list)
  else (0, insertDeveloper list dev)

/-- Sample records mirroring the `developers` array in `main` (salaries
are whole dollars). -/
def devBodheesh : Developer :=
  ⟨1, "Bodheesh VC", "bodheesh@example.com", "JavaScript,TypeScript,React,Node.js,MongoDB", 85000⟩

def devAlice : Developer :=
  ⟨2, "Alice Johnson", "alice@example.com", "Java,Spring Boot,MySQL,AWS", 90000⟩

def devBob : Developer :=
  ⟨3, "Bob Smith", "bob@example.com", "Python,Django,PostgreSQL,Docker", 82000⟩

def devCarol : Developer :=
  ⟨4, "Carol Davis", "carol@example.com", "C#,.NET,SQL Server,Azure", 88000⟩

/-! ## Basic helper lemmas -/

theorem string_length_eq_zero_iff (s : String) : s.length = 0 ↔ s = "" := by
  cases s with
  | mk l =>
    constructor
    · intro h
      have hl : l = [] := List.length_eq_zero.mp h
      subst hl
      rfl
    · intro h
      have hl : l = [] := congrArg String.data h
      subst hl
      rfl

theorem insertAll_head (devs : List Developer) :
    ∀ list : LinkedList, (insertAll list devs).head = devs.reverse ++ list.head := by
  induction devs with
  | nil => intro list; simp [insertAll]
  | cons d ds ih =>
    intro list
    have h := ih (insertDeveloper list d)
    simp only [insertAll, List.foldl_cons] at h ⊢
    rw [h]
    simp [insertDeveloper]

theorem appendAll_contents (devs : List Developer) :
    ∀ arr : DynamicArray, (appendAll arr devs).developers = arr.developers ++ devs ∧
      (appendAll arr devs).size = arr.size + devs.length := by
  induction devs with
  | nil => intro arr; simp [appendAll]
  | cons d ds ih =>
    intro arr
    have h := ih (addDeveloper arr d)
    simp only [appendAll, List.foldl_cons] at h ⊢
    have hd : (addDeveloper arr d).developers = arr.developers ++ [d] := by
      simp only [addDeveloper, resizeArray]
      split <;> rfl
    have hs : (addDeveloper arr d).size = arr.size + 1 := by
      simp only [addDeveloper, resizeArray]
      split <;> rfl
    refine ⟨?_, ?_⟩
    · rw [h.1, hd, List.append_assoc]
      rfl
    · rw [h.2, hs]
      simp
      omega

theorem appendAll_capacity_invariant (devs : List Developer) :
    ∀ arr : DynamicArray, 1 ≤ arr.capacity → arr.size ≤ arr.capacity →
      1 ≤ (appendAll arr devs).capacity ∧
      (appendAll arr devs).size ≤ (appendAll arr devs).capacity := by
  induction devs with
  | nil => intro arr h1 h2; exact ⟨h1, h2⟩
  | cons d ds ih =>
    intro arr h1 h2
    have hstep : 1 ≤ (addDeveloper arr d).capacity ∧
        (addDeveloper arr d).size ≤ (addDeveloper arr d).capacity := by
      unfold addDeveloper resizeArray
      by_cases hc : arr.capacity ≤ arr.size <;> simp [hc] <;> omega
    simpa [appendAll] using ih (addDeveloper arr d) hstep.1 hstep.2

/-! ## Claim theorems: validation, safe insert, hash, stores -/

/-- Claim C6: `validateDeveloper` is true exactly when the identity is
positive, name and email are non-empty, the email contains an `@`, and
the salary is non-negative; it rejects identity 0, identity -5, an empty
name, an `@`-less email and salary -1, and accepts salary 0. -/
theorem validateDeveloper_spec :
    (∀ dev : Developer, validateDeveloper dev = true ↔
      (0 < dev.id ∧ dev.name ≠ "" ∧ dev.email ≠ "" ∧
        dev.email.data.contains '@' = true ∧ 0 ≤ dev.salary)) ∧
    validateDeveloper ⟨0, "Ann", "ann@example.com", "", 10⟩ = false ∧
    validateDeveloper ⟨-5, "Ann", "ann@example.com", "", 10⟩ = false ∧
    validateDeveloper ⟨7, "", "ann@example.com", "", 10⟩ = false ∧
    validateDeveloper ⟨7, "Ann", "ann.example.com", "", 10⟩ = false ∧
    validateDeveloper ⟨7, "Ann", "ann@example.com", "", -1⟩ = false ∧
    validateDeveloper ⟨7, "Ann", "ann@example.com", "", 0⟩ = true := by
  refine ⟨?_, by decide, by decide, by decide, by decide, by decide, by decide⟩
  intro dev
  unfold validateDeveloper
  split_ifs with h1 h2 h3 h4 h5 <;>
    simp_all [string_length_eq_zero_iff]

/-- Claim C9: when the identity of `dev` is already present in the list,
`safeDeveloperInsert` returns the non-success status -1 and leaves both
the chain and the size unchanged. -/
theorem safeInsert_duplicate_rejected (list : LinkedList) (dev : Developer)
    (hdup : (findDeveloperById list dev.id).isSome = true) :
    (safeDeveloperInsert list dev).1 = -1 ∧
    (safeDeveloperInsert list dev).1 ≠ 0 ∧
    (safeDeveloperInsert list dev).2.head = list.head ∧
    (safeDeveloperInsert list dev).2.size = list.size := by
  have hres : safeDeveloperInsert list dev = (-1, list) := by
    cases hvb : validateDeveloper dev with
    | false => simp [safeDeveloperInsert, hvb]
    | true => simp [safeDeveloperInsert, hvb, hdup]
  rw [hres]
  exact ⟨rfl, by norm_num, rfl, rfl⟩

theorem safeInsert_duplicate_rejected_witness :
    (findDeveloperById (insertDeveloper createLinkedList devBodheesh) devBodheesh.id).isSome
      = true ∧
    ((safeDeveloperInsert (insertDeveloper createLinkedList devBodheesh) devBodheesh).1 = -1 ∧
     (safeDeveloperInsert (insertDeveloper createLinkedList devBodheesh) devBodheesh).1 ≠ 0 ∧
     (safeDeveloperInsert (insertDeveloper createLinkedList devBodheesh) devBodheesh).2.head
       = (insertDeveloper createLinkedList devBodheesh).head ∧
     (safeDeveloperInsert (insertDeveloper createLinkedList devBodheesh) devBodheesh).2.size
       = (insertDeveloper createLinkedList devBodheesh).size) :=
  ⟨by decide, safeInsert_duplicate_rejected _ _ (by decide)⟩

/-- Claim C1 counterexample: an invalid-record call and a
duplicate-identity call return the very same status value -1, so the two
failure outcomes are not distinct values. -/
theorem safeInsert_outcomes_counterexample :
    validateDeveloper ⟨0, "Ann", "ann@example.com", "", 10⟩ = false ∧
    (findDeveloperById (insertDeveloper createLinkedList devBodheesh) 1).isSome = true ∧
    validateDeveloper ⟨1, "New Person", "new@example.com", "", 10⟩ = true ∧
    (safeDeveloperInsert createLinkedList ⟨0, "Ann", "ann@example.com", "", 10⟩).1 =
      (safeDeveloperInsert (insertDeveloper createLinkedList devBodheesh)
        ⟨1, "New Person", "new@example.com", "", 10⟩).1 := by
  exact ⟨by decide, by decide, by decide, by decide⟩

/-- Claim C1 (amended): `safeDeveloperInsert` distinguishes success from
failure by its returned status (0 exactly when the record is valid and
the identity is fresh, otherwise -1), but the invalid-record and
duplicate-identity failures share the same status value -1. -/
theorem safeInsert_status_spec (list : LinkedList) (dev : Developer) :
    ((safeDeveloperInsert list dev).1 = 0 ∨ (safeDeveloperInsert list dev).1 = -1) ∧
    ((safeDeveloperInsert list dev).1 = 0 ↔
      (validateDeveloper dev = true ∧ findDeveloperById list dev.id = none)) ∧
    ((safeDeveloperInsert list dev).1 = -1 ↔
      (validateDeveloper dev = false ∨ (findDeveloperById list dev.id).isSome = true)) := by
  unfold safeDeveloperInsert
  by_cases hv : validateDeveloper dev <;>
    by_cases hd : (findDeveloperById list dev.id).isSome <;>
      simp_all [Option.isSome_iff_ne_none]

/-- Claim C5: after any sequence of inserts into an empty Sequential
Store the chain from the head is exactly the reverse insertion order,
and every inserted identity is found by `findDeveloperById` with a
matching record. -/
theorem linkedList_order_and_find (devs : List Developer) :
    (insertAll createLinkedList devs).head = devs.reverse ∧
    ∀ d ∈ devs, ∃ r, findDeveloperById (insertAll createLinkedList devs) d.id = some r ∧
      r.id = d.id := by
  have hh : (insertAll createLinkedList devs).head = devs.reverse := by
    simpa [createLinkedList] using insertAll_head devs createLinkedList
  refine ⟨hh, ?_⟩
  intro d hd
  have hmem : d ∈ (insertAll createLinkedList devs).head := by
    rw [hh, List.mem_reverse]
    exact hd
  have hsome : ((insertAll createLinkedList devs).head.find?
      (fun r => r.id == d.id)).isSome := by
    rw [List.find?_isSome]
    exact ⟨d, hmem, by simp⟩
  obtain ⟨r, hr⟩ := Option.isSome_iff_exists.mp hsome
  refine ⟨r, hr, ?_⟩
  have := List.find?_some hr
  simpa using this

theorem linkedList_order_and_find_witness :
    ((insertAll createLinkedList [devBodheesh, devAlice]).head
        = [devBodheesh, devAlice].reverse ∧
      ∃ r, findDeveloperById (insertAll createLinkedList [devBodheesh, devAlice]) devAlice.id
          = some r ∧ r.id = devAlice.id) :=
  ⟨(linkedList_order_and_find [devBodheesh, devAlice]).1,
   (linkedList_order_and_find [devBodheesh, devAlice]).2 devAlice (by decide)⟩

/-- Claim C4: appending 2C+1 records to an Indexed Store created with
capacity C ≥ 1 leaves every record at its appended position, the size at
2C+1, and the capacity at least 2C+1. -/
theorem dynamicArray_growth (C : Int) (devs : List Developer)
    (hC : 1 ≤ C) (hlen : (devs.length : Int) = 2 * C + 1) :
    2 * C + 1 ≤ (appendAll (createDynamicArray C) devs).capacity ∧
    (appendAll (createDynamicArray C) devs).size = 2 * C + 1 ∧
    (appendAll (createDynamicArray C) devs).developers = devs := by
  have h1 := appendAll_contents devs (createDynamicArray C)
  have h2 := appendAll_capacity_invariant devs (createDynamicArray C)
    (by simpa [createDynamicArray] using hC) (by simp [createDynamicArray]; omega)
  have hsz : (appendAll (createDynamicArray C) devs).size = 2 * C + 1 := by
    rw [h1.2]
    simp [createDynamicArray]
    omega
  refine ⟨by omega, hsz, ?_⟩
  rw [h1.1]
  simp [createDynamicArray]

theorem dynamicArray_growth_witness :
    (1 ≤ (1 : Int) ∧ (([devBodheesh, devAlice, devBob].length : Nat) : Int) = 2 * 1 + 1) ∧
    (2 * 1 + 1 ≤ (appendAll (createDynamicArray 1) [devBodheesh, devAlice, devBob]).capacity ∧
     (appendAll (createDynamicArray 1) [devBodheesh, devAlice, devBob]).size = 2 * 1 + 1 ∧
     (appendAll (createDynamicArray 1) [devBodheesh, devAlice, devBob]).developers
       = [devBodheesh, devAlice, devBob]) :=
  ⟨⟨by decide, by decide⟩,
   dynamicArray_growth 1 [devBodheesh, devAlice, devBob] (by decide) (by decide)⟩

/-- Claim C7: two distinct identities hashing to the same bucket are both
independently retrievable after both are inserted. -/
theorem hashTable_collision_retrievable (table : HashTable) (k1 k2 : Int)
    (d1 d2 : Developer) (hne : k1 ≠ k2) (hcol : hash k1 = hash k2) :
    hashSearch (hashInsert (hashInsert table k1 d1) k2 d2) k1 = some d1 ∧
    hashSearch (hashInsert (hashInsert table k1 d1) k2 d2) k2 = some d2 := by
  have hbeq1 : (k2 == k1) = false := beq_eq_false_iff_ne.mpr (Ne.symm hne)
  unfold hashSearch hashInsert
  simp [hcol, List.find?_cons, hbeq1]

theorem hashTable_collision_retrievable_witness :
    ((1 : Int) ≠ 102 ∧ hash 1 = hash 102) ∧
    (hashSearch (hashInsert (hashInsert createHashTable 1 devBodheesh) 102 devAlice) 1
        = some devBodheesh ∧
      hashSearch (hashInsert (hashInsert createHashTable 1 devBodheesh) 102 devAlice) 102
        = some devAlice) :=
  ⟨⟨by decide, by decide⟩,
   hashTable_collision_retrievable createHashTable 1 102 devBodheesh devAlice
     (by decide) (by decide)⟩

/-- Claim C8: the Hash Index accepts duplicate identities, and after two
inserts under the same key the search returns the last inserted record. -/
theorem hashTable_duplicate_last_wins (table : HashTable) (k : Int) (d1 d2 : Developer) :
    hashSearch (hashInsert (hashInsert table k d1) k d2) k = some d2 := by
  unfold hashSearch hashInsert
  simp [List.find?_cons]

/-- Claim C2 counterexample: for the negative identity -5 the hash value
is 4294967291 (the signed remainder -5 converted to `unsigned int`), far
outside the interval [0, 100]. -/
theorem hash_negative_counterexample :
    hash (-5) = 4294967291 ∧ ¬ hash (-5) ≤ 100 := by
  exact ⟨by decide, by decide⟩

/-- Claim C2 (amended): for every nonnegative identity the hash equals
the remainder modulo 101 and lies in [0, 100]; for negative identities
the signed remainder is converted to `unsigned int`, which lands outside
[0, 100] whenever the remainder is nonzero. -/
theorem hash_nonneg_spec (k : Int) (hk : 0 ≤ k) :
    hash k = (k % 101).toNat ∧ hash k ≤ 100 := by
  have h1 : k.tmod 101 = k % 101 := Int.tmod_eq_emod hk (by norm_num)
  have h2 : 0 ≤ k % 101 := Int.emod_nonneg k (by norm_num)
  have h3 : k % 101 < 101 := Int.emod_lt_of_pos k (by norm_num)
  have h4 : (k % 101) % ((2 : Int) ^ 32) = k % 101 :=
    Int.emod_eq_of_lt h2 (by norm_num; omega)
  have hcast : ((HASH_TABLE_SIZE : Nat) : Int) = (101 : Int) := by norm_num [HASH_TABLE_SIZE]
  unfold hash
  rw [hcast, h1, h4]
  omega

theorem hash_nonneg_spec_witness :
    (0 : Int) ≤ 205 ∧ (hash 205 = ((205 : Int) % 101).toNat ∧ hash 205 ≤ 100) :=
  ⟨by decide, hash_nonneg_spec 205 (by decide)⟩

/-! ## Quicksort: swap lemmas -/

theorem set_self_of_getElem? (l : List Developer) (i : Nat) (a : Developer)
    (h : l[i]? = some a) : l.set i a = l := by
  induction l generalizing i with
  | nil => simp at h
  | cons x xs ih =>
    cases i with
    | zero =>
      simp only [List.getElem?_cons_zero, Option.some.injEq] at h
      simp [h]
    | succ n =>
      simp only [List.getElem?_cons_succ] at h
      simp [ih n h]

theorem swapL_eq (l : List Developer) (i j : Nat) (a b : Developer)
    (ha : l[i]? = some a) (hb : l[j]? = some b) :
    swapL l i j = (l.set i b).set j a := by
  unfold swapL
  rw [ha, hb]

theorem swapL_self (l : List Developer) (i : Nat) : swapL l i i = l := by
  rcases hli : l[i]? with _ | a
  · unfold swapL
    rw [hli]
  · rw [swapL_eq l i i a a hli hli, List.set_set]
    exact set_self_of_getElem? l i a hli

theorem swapL_length (l : List Developer) (i j : Nat) :
    (swapL l i j).length = l.length := by
  unfold swapL
  split <;> simp

theorem getD_swapL_ne (l : List Developer) (i j k : Nat) (d : Developer)
    (h1 : k ≠ i) (h2 : k ≠ j) : (swapL l i j).getD k d = l.getD k d := by
  unfold swapL
  split
  · simp [List.getD_eq_getElem?_getD, List.getElem?_set_ne (Ne.symm h2),
      List.getElem?_set_ne (Ne.symm h1)]
  · rfl

theorem getD_swapL_fst (l : List Developer) (i j : Nat) (d : Developer)
    (hi : i < l.length) (hj : j < l.length) :
    (swapL l i j).getD i d = l.getD j d := by
  rcases eq_or_ne i j with rfl | hij
  · rw [swapL_self]
  · rw [swapL_eq l i j _ _ (List.getElem?_eq_getElem hi) (List.getElem?_eq_getElem hj)]
    rw [List.getD_eq_getElem?_getD, List.getElem?_set_ne (Ne.symm hij),
      List.getElem?_set_self (by simpa using hi)]
    simp [List.getD_eq_getElem?_getD, List.getElem?_eq_getElem hj]

theorem getD_swapL_snd (l : List Developer) (i j : Nat) (d : Developer)
    (hi : i < l.length) (hj : j < l.length) :
    (swapL l i j).getD j d = l.getD i d := by
  rcases eq_or_ne i j with rfl | hij
  · rw [swapL_self]
  · rw [swapL_eq l i j _ _ (List.getElem?_eq_getElem hi) (List.getElem?_eq_getElem hj)]
    rw [List.getD_eq_getElem?_getD, List.getElem?_set_self (by simpa using hj)]
    simp [List.getD_eq_getElem?_getD, List.getElem?_eq_getElem hi]

/-! ## Quicksort: partition loop invariants -/

theorem partitionLoop_i_bounds (pivot : Int) :
    ∀ (cnt : Nat) (arr : List Developer) (i : Int) (j : Nat),
    i ≤ (partitionLoop pivot arr i j cnt).2 ∧
      (partitionLoop pivot arr i j cnt).2 ≤ i + cnt := by
  intro cnt
  induction cnt with
  | zero =>
    intro arr i j
    simp [partitionLoop]
  | succ cnt ih =>
    intro arr i j
    simp only [partitionLoop]
    split
    · have h := ih (swapL arr (i + 1).toNat j) (i + 1) (j + 1)
      constructor <;> omega
    · have h := ih arr i (j + 1)
      constructor <;> omega

theorem partitionLoop_spec (pivot : Int) (low : Nat) :
    ∀ (cnt : Nat) (arr : List Developer) (i : Int) (j : Nat),
    j + cnt ≤ arr.length →
    (low : Int) - 1 ≤ i → i + 1 ≤ (j : Int) →
    (∀ k : Nat, low ≤ k → (k : Int) ≤ i → pivot ≤ salAt arr k) →
    (∀ k : Nat, i < (k : Int) → k < j → salAt arr k < pivot) →
    ((partitionLoop pivot arr i j cnt).1.length = arr.length ∧
     (∀ k : Nat, k < low ∨ j + cnt ≤ k →
       (partitionLoop pivot arr i j cnt).1.getD k default = arr.getD k default) ∧
     (∀ k : Nat, low ≤ k → k < j + cnt →
       ∃ kk : Nat, low ≤ kk ∧ kk < j + cnt ∧
         (partitionLoop pivot arr i j cnt).1.getD k default = arr.getD kk default) ∧
     (∀ k : Nat, low ≤ k → (k : Int) ≤ (partitionLoop pivot arr i j cnt).2 →
       pivot ≤ salAt (partitionLoop pivot arr i j cnt).1 k) ∧
     (∀ k : Nat, (partitionLoop pivot arr i j cnt).2 < (k : Int) → k < j + cnt →
       salAt (partitionLoop pivot arr i j cnt).1 k < pivot)) := by
  intro cnt
  induction cnt with
  | zero =>
    intro arr i j hlen h0 h1 H1 H2
    refine ⟨rfl, fun k _ => rfl, fun k hk1 hk2 => ⟨k, hk1, by omega, rfl⟩, ?_, ?_⟩
    · intro k hk1 hk2
      exact H1 k hk1 hk2
    · intro k hk1 hk2
      exact H2 k hk1 (by omega)
  | succ cnt ih =>
    intro arr i j hlen h0 h1 H1 H2
    have hpi : (((i + 1).toNat : Nat) : Int) = i + 1 := Int.toNat_of_nonneg (by omega)
    simp only [partitionLoop]
    split
    · next hcond =>
      -- the element at j joins the kept-left region and is swapped to i + 1
      have hjlen : j < arr.length := by omega
      have hplen : (i + 1).toNat < arr.length := by omega
      have harr2len : (swapL arr (i + 1).toNat j).length = arr.length :=
        swapL_length arr (i + 1).toNat j
      have ihres := ih (swapL arr (i + 1).toNat j) (i + 1) (j + 1)
        (by omega)
        (by omega)
        (by push_cast; omega)
        (by
          intro k hk1 hk2
          by_cases hkp : k = (i + 1).toNat
          · subst hkp
            simp only [salAt]
            rw [getD_swapL_fst arr _ j default hplen hjlen]
            exact hcond
          · have hkj : k ≠ j := by omega
            simp only [salAt]
            rw [getD_swapL_ne arr _ j k default hkp hkj]
            exact H1 k hk1 (by omega))
        (by
          intro k hk1 hk2
          by_cases hkj : k = j
          · subst hkj
            simp only [salAt]
            rw [getD_swapL_snd arr _ k default hplen hjlen]
            exact H2 (i + 1).toNat (by omega) (by omega)
          · have hkp : k ≠ (i + 1).toNat := by omega
            simp only [salAt]
            rw [getD_swapL_ne arr _ j k default hkp hkj]
            exact H2 k (by omega) (by omega))
      obtain ⟨L, U, M, SL, SR⟩ := ihres
      refine ⟨by rw [L, harr2len], ?_, ?_, ?_, ?_⟩
      · intro k hk
        rw [U k (by omega)]
        exact getD_swapL_ne arr _ j k default (by omega) (by omega)
      · intro k hk1 hk2
        obtain ⟨kk, hkk1, hkk2, hkkeq⟩ := M k hk1 (by omega)
        by_cases hkkp : kk = (i + 1).toNat
        · refine ⟨j, by omega, by omega, ?_⟩
          rw [hkkeq, hkkp]
          exact getD_swapL_fst arr _ j default hplen hjlen
        · by_cases hkkj : kk = j
          · refine ⟨(i + 1).toNat, by omega, by omega, ?_⟩
            rw [hkkeq, hkkj]
            exact getD_swapL_snd arr _ j default hplen hjlen
          · refine ⟨kk, hkk1, by omega, ?_⟩
            rw [hkkeq]
            exact getD_swapL_ne arr _ j kk default hkkp hkkj
      · intro k hk1 hk2
        exact SL k hk1 hk2
      · intro k hk1 hk2
        exact SR k hk1 (by omega)
    · next hcond =>
      -- the element at j stays in the right region
      have ihres := ih arr i (j + 1)
        (by omega)
        h0
        (by push_cast; omega)
        H1
        (by
          intro k hk1 hk2
          by_cases hkj : k = j
          · subst hkj
            omega
          · exact H2 k hk1 (by omega))
      obtain ⟨L, U, M, SL, SR⟩ := ihres
      refine ⟨L, ?_, ?_, ?_, ?_⟩
      · intro k hk
        exact U k (by omega)
      · intro k hk1 hk2
        obtain ⟨kk, hkk1, hkk2, hkkeq⟩ := M k hk1 (by omega)
        exact ⟨kk, hkk1, by omega, hkkeq⟩
      · intro k hk1 hk2
        exact SL k hk1 hk2
      · intro k hk1 hk2
        exact SR k hk1 (by omega)

/-! ## Quicksort: partition specification -/

theorem partition_pi_bounds (arr : List Developer) (low high : Nat) (hlh : low ≤ high) :
    low ≤ (partition arr low high).2 ∧ (partition arr low high).2 ≤ high := by
  have hb := partitionLoop_i_bounds (salAt arr high) (high - low) arr ((low : Int) - 1) low
  simp only [partition]
  omega

theorem partition_spec (arr : List Developer) (low high : Nat)
    (hlh : low ≤ high) (hlen : high < arr.length) :
    (partition arr low high).1.length = arr.length ∧
    (low ≤ (partition arr low high).2 ∧ (partition arr low high).2 ≤ high) ∧
    (∀ k : Nat, k < low ∨ high < k →
      (partition arr low high).1.getD k default = arr.getD k default) ∧
    (∀ k : Nat, low ≤ k → k ≤ high →
      ∃ kk : Nat, low ≤ kk ∧ kk ≤ high ∧
        (partition arr low high).1.getD k default = arr.getD kk default) ∧
    (∀ k : Nat, low ≤ k → k < (partition arr low high).2 →
      salAt (partition arr low high).1 (partition arr low high).2 ≤
        salAt (partition arr low high).1 k) ∧
    (∀ k : Nat, (partition arr low high).2 < k → k ≤ high →
      salAt (partition arr low high).1 k <
        salAt (partition arr low high).1 (partition arr low high).2) := by
  have hb := partitionLoop_i_bounds (salAt arr high) (high - low) arr ((low : Int) - 1) low
  have hs := partitionLoop_spec (salAt arr high) low (high - low) arr ((low : Int) - 1) low
    (by omega) (by omega) (by omega)
    (fun k hk1 hk2 => absurd hk2 (by omega))
    (fun k hk1 hk2 => absurd hk2 (by omega))
  set pv := salAt arr high with hpv
  set r := partitionLoop pv arr ((low : Int) - 1) low (high - low) with hr
  obtain ⟨L, U, M, SL, SR⟩ := hs
  have hpart : partition arr low high = (swapL r.1 (r.2 + 1).toNat high, (r.2 + 1).toNat) :=
    rfl
  rw [hpart]
  set pi := (r.2 + 1).toNat with hpidef
  have hpin : ((pi : Nat) : Int) = r.2 + 1 := by omega
  have hpilo : low ≤ pi := by omega
  have hpihi : pi ≤ high := by omega
  have hrlen : r.1.length = arr.length := L
  have hpilen : pi < r.1.length := by omega
  have hhlen2 : high < r.1.length := by omega
  have hsalpi : salAt (swapL r.1 pi high) pi = pv := by
    simp only [salAt]
    rw [getD_swapL_fst r.1 pi high default hpilen hhlen2]
    rw [U high (Or.inr (by omega))]
    rw [hpv]
    rfl
  refine ⟨?_, ⟨hpilo, hpihi⟩, ?_, ?_, ?_, ?_⟩
  · rw [swapL_length]
    exact L
  · intro k hk
    have h1 : (swapL r.1 pi high).getD k default = r.1.getD k default :=
      getD_swapL_ne r.1 pi high k default (by omega) (by omega)
    rw [h1]
    exact U k (by omega)
  · intro k hk1 hk2
    by_cases hkpi : k = pi
    · rw [hkpi]
      refine ⟨high, by omega, le_refl high, ?_⟩
      rw [getD_swapL_fst r.1 pi high default hpilen hhlen2]
      exact U high (Or.inr (by omega))
    · by_cases hkhigh : k = high
      · rw [hkhigh]
        have hpih : pi < high := by omega
        obtain ⟨kk, hkk1, hkk2, heq⟩ := M pi (by omega) (by omega)
        refine ⟨kk, hkk1, by omega, ?_⟩
        rw [getD_swapL_snd r.1 pi high default hpilen hhlen2]
        exact heq
      · obtain ⟨kk, hkk1, hkk2, heq⟩ := M k hk1 (by omega)
        refine ⟨kk, hkk1, by omega, ?_⟩
        rw [getD_swapL_ne r.1 pi high k default hkpi hkhigh]
        exact heq
  · intro k hk1 hk2
    rw [hsalpi]
    have heq : salAt (swapL r.1 pi high) k = salAt r.1 k := by
      simp only [salAt]
      rw [getD_swapL_ne r.1 pi high k default (by omega) (by omega)]
    rw [heq]
    exact SL k hk1 (by omega)
  · intro k hk1 hk2
    rw [hsalpi]
    by_cases hkhigh : k = high
    · rw [hkhigh]
      have hpih : pi < high := by omega
      have heq : salAt (swapL r.1 pi high) high = salAt r.1 pi := by
        simp only [salAt]
        rw [getD_swapL_snd r.1 pi high default hpilen hhlen2]
      rw [heq]
      exact SR pi (by omega) (by omega)
    · have heq : salAt (swapL r.1 pi high) k = salAt r.1 k := by
        simp only [salAt]
        rw [getD_swapL_ne r.1 pi high k default (by omega) hkhigh]
      rw [heq]
      exact SR k (by omega) (by omega)

/-! ## Quicksort: the recursive sort -/

theorem quickSort_of_le (fuel : Nat) (arr : List Developer) (low high : Int)
    (h : high ≤ low) : quickSort fuel arr low high = arr := by
  cases fuel with
  | zero => rfl
  | succ fuel =>
    rw [quickSort]
    rw [if_neg (by omega)]

theorem quickSort_spec :
    ∀ (fuel : Nat) (arr : List Developer) (low high : Int),
    0 ≤ low → high < (arr.length : Int) → (high - low).toNat ≤ fuel →
    ((quickSort fuel arr low high).length = arr.length ∧
     (∀ k : Nat, (k : Int) < low ∨ high < (k : Int) →
       (quickSort fuel arr low high).getD k default = arr.getD k default) ∧
     (∀ k : Nat, low ≤ (k : Int) → (k : Int) ≤ high →
       ∃ kk : Nat, low ≤ (kk : Int) ∧ (kk : Int) ≤ high ∧
         (quickSort fuel arr low high).getD k default = arr.getD kk default) ∧
     (∀ k1 k2 : Nat, low ≤ (k1 : Int) → k1 ≤ k2 → (k2 : Int) ≤ high →
       salAt (quickSort fuel arr low high) k2 ≤ salAt (quickSort fuel arr low high) k1)) := by
  intro fuel
  induction fuel with
  | zero =>
    intro arr low high h0 hlen hfuel
    refine ⟨rfl, fun k _ => rfl, fun k hk1 hk2 => ⟨k, hk1, hk2, rfl⟩, ?_⟩
    intro k1 k2 hk1 hk12 hk2
    have hk : k1 = k2 := by omega
    rw [hk]
  | succ fuel ih =>
    intro arr low high h0 hlen hfuel
    by_cases hlh : low < high
    · have hhigh0 : (0 : Int) ≤ high := by omega
      have hlncast : (low.toNat : Int) = low := Int.toNat_of_nonneg h0
      have hhncast : (high.toNat : Int) = high := Int.toNat_of_nonneg hhigh0
      have hlhn : low.toNat ≤ high.toNat := by omega
      have hlenn : high.toNat < arr.length := by omega
      obtain ⟨PL, ⟨PB1, PB2⟩, PU, PM, PSL, PSR⟩ :=
        partition_spec arr low.toNat high.toNat hlhn hlenn
      set p := partition arr low.toNat high.toNat with hp
      have hpilow : low ≤ (p.2 : Int) := by omega
      have hpihigh : (p.2 : Int) ≤ high := by omega
      have ih1 := ih p.1 low ((p.2 : Int) - 1) h0 (by rw [PL]; omega) (by omega)
      obtain ⟨L1, U1, M1, S1⟩ := ih1
      set a1 := quickSort fuel p.1 low ((p.2 : Int) - 1) with ha1
      have ih2 := ih a1 ((p.2 : Int) + 1) high (by omega) (by rw [L1, PL]; omega) (by omega)
      obtain ⟨L2, U2, M2, S2⟩ := ih2
      set a2 := quickSort fuel a1 ((p.2 : Int) + 1) high with ha2
      have hunfold : quickSort (fuel + 1) arr low high = a2 := by
        rw [quickSort]
        rw [if_pos hlh]
      rw [hunfold]
      refine ⟨by rw [L2, L1, PL], ?_, ?_, ?_⟩
      · intro k hk
        have e2 : a2.getD k default = a1.getD k default := U2 k (by omega)
        have e1 : a1.getD k default = p.1.getD k default := U1 k (by omega)
        have e0 : p.1.getD k default = arr.getD k default := PU k (by omega)
        rw [e2, e1, e0]
      · intro k hk1 hk2
        by_cases hz1 : (k : Int) ≤ (p.2 : Int) - 1
        · have e2 : a2.getD k default = a1.getD k default := U2 k (by omega)
          obtain ⟨kk, hkk1, hkk2, e1⟩ := M1 k hk1 hz1
          obtain ⟨kk2, h1, h2, e0⟩ := PM kk (by omega) (by omega)
          exact ⟨kk2, by omega, by omega, by rw [e2, e1, e0]⟩
        · by_cases hz2 : (k : Int) = (p.2 : Int)
          · have e2 : a2.getD k default = a1.getD k default := U2 k (by omega)
            have e1 : a1.getD k default = p.1.getD k default := U1 k (by omega)
            obtain ⟨kk2, h1, h2, e0⟩ := PM k (by omega) (by omega)
            exact ⟨kk2, by omega, by omega, by rw [e2, e1, e0]⟩
          · obtain ⟨kk, hkk1, hkk2, e2⟩ := M2 k (by omega) hk2
            have e1 : a1.getD kk default = p.1.getD kk default := U1 kk (by omega)
            obtain ⟨kk2, h1, h2, e0⟩ := PM kk (by omega) (by omega)
            exact ⟨kk2, by omega, by omega, by rw [e2, e1, e0]⟩
      · have hsal_pi : salAt a2 p.2 = salAt p.1 p.2 := by
          simp only [salAt]
          rw [U2 p.2 (by omega), U1 p.2 (by omega)]
        have hleft : ∀ k : Nat, low ≤ (k : Int) → (k : Int) < (p.2 : Int) →
            salAt p.1 p.2 ≤ salAt a2 k := by
          intro k hk1 hk2
          have e2 : a2.getD k default = a1.getD k default := U2 k (by omega)
          obtain ⟨kk, hkk1, hkk2, e1⟩ := M1 k hk1 (by omega)
          have heq : salAt a2 k = salAt p.1 kk := by
            simp only [salAt]
            rw [e2, e1]
          rw [heq]
          exact PSL kk (by omega) (by omega)
        have hright : ∀ k : Nat, (p.2 : Int) < (k : Int) → (k : Int) ≤ high →
            salAt a2 k < salAt p.1 p.2 := by
          intro k hk1 hk2
          obtain ⟨kk, hkk1, hkk2, e2⟩ := M2 k (by omega) hk2
          have e1 : a1.getD kk default = p.1.getD kk default := U1 kk (by omega)
          have heq : salAt a2 k = salAt p.1 kk := by
            simp only [salAt]
            rw [e2, e1]
          rw [heq]
          exact PSR kk (by omega) (by omega)
        have hlefteq : ∀ k : Nat, (k : Int) ≤ (p.2 : Int) - 1 → salAt a2 k = salAt a1 k := by
          intro k hk
          simp only [salAt]
          rw [U2 k (by omega)]
        intro k1 k2 hk1 hk12 hk2
        by_cases hz1 : (k2 : Int) ≤ (p.2 : Int) - 1
        · rw [hlefteq k1 (by omega), hlefteq k2 (by omega)]
          exact S1 k1 k2 hk1 hk12 hz1
        · by_cases hz2 : (p.2 : Int) + 1 ≤ (k1 : Int)
          · exact S2 k1 k2 hz2 hk12 hk2
          · have hub : salAt a2 k2 ≤ salAt p.1 p.2 := by
              by_cases h : (k2 : Int) = (p.2 : Int)
              · have hn : k2 = p.2 := by omega
                rw [hn, hsal_pi]
              · exact le_of_lt (hright k2 (by omega) hk2)
            have hlb : salAt p.1 p.2 ≤ salAt a2 k1 := by
              by_cases h : (k1 : Int) = (p.2 : Int)
              · have hn : k1 = p.2 := by omega
                rw [hn, hsal_pi]
              · exact hleft k1 hk1 (by omega)
            exact le_trans hub hlb
    · rw [quickSort_of_le (fuel + 1) arr low high (by omega)]
      refine ⟨rfl, fun k _ => rfl, fun k hk1 hk2 => ⟨k, hk1, hk2, rfl⟩, ?_⟩
      intro k1 k2 hk1 hk12 hk2
      have hk : k1 = k2 := by omega
      rw [hk]

theorem quickSort_succ (fuel : Nat) (arr : List Developer) (low high : Int)
    (h : low < high) :
    quickSort (fuel + 1) arr low high =
      quickSort fuel
        (quickSort fuel (partition arr low.toNat high.toNat).1 low
          (((partition arr low.toNat high.toNat).2 : Int) - 1))
        (((partition arr low.toNat high.toNat).2 : Int) + 1) high := by
  rw [quickSort]
  rw [if_pos h]

theorem quickSort_fuel_any :
    ∀ (f g : Nat) (arr : List Developer) (low high : Int),
    g ≤ f → 0 ≤ low → (high - low).toNat ≤ g →
    quickSort g arr low high = quickSort (high - low).toNat arr low high := by
  intro f
  induction f with
  | zero =>
    intro g arr low high hg h0 hn
    have hg0 : g = 0 := by omega
    have hn0 : (high - low).toNat = 0 := by omega
    rw [hg0, hn0]
  | succ f ihf =>
    intro g arr low high hg h0 hn
    by_cases hlh : low < high
    · have hn1 : 1 ≤ (high - low).toNat := by omega
      obtain ⟨g1, rfl⟩ : ∃ g1, g = g1 + 1 := ⟨g - 1, by omega⟩
      obtain ⟨n1, hn1eq⟩ : ∃ n1, (high - low).toNat = n1 + 1 :=
        ⟨(high - low).toNat - 1, by omega⟩
      have hhigh0 : (0 : Int) ≤ high := by omega
      have hpib := partition_pi_bounds arr low.toNat high.toNat (by omega)
      set p := partition arr low.toNat high.toNat with hp
      have hpilow : low ≤ (p.2 : Int) := by omega
      have hpihigh : (p.2 : Int) ≤ high := by omega
      rw [hn1eq, quickSort_succ g1 arr low high hlh, quickSort_succ n1 arr low high hlh]
      have e1 : quickSort g1 p.1 low ((p.2 : Int) - 1) =
          quickSort n1 p.1 low ((p.2 : Int) - 1) := by
        have ha := ihf g1 p.1 low ((p.2 : Int) - 1) (by omega) h0 (by omega)
        have hb := ihf n1 p.1 low ((p.2 : Int) - 1) (by omega) h0 (by omega)
        rw [ha, hb]
      rw [e1]
      have hc := ihf g1 (quickSort n1 p.1 low ((p.2 : Int) - 1)) ((p.2 : Int) + 1) high
        (by omega) (by omega) (by omega)
      have hd := ihf n1 (quickSort n1 p.1 low ((p.2 : Int) - 1)) ((p.2 : Int) + 1) high
        (by omega) (by omega) (by omega)
      rw [hc, hd]
    · rw [quickSort_of_le g arr low high (by omega),
        quickSort_of_le ((high - low).toNat) arr low high (by omega)]

/-- Claim C10: the quicksort recursion terminates on every call with
`0 ≤ low ≤ high`: `partition` returns a pivot position between `low` and
`high`, so both recursive calls act on strictly smaller ranges, and any
fuel of at least `high - low` (the range length minus one) yields the
same, stable result. -/
theorem quickSort_terminates (arr : List Developer) (low high : Int)
    (h0 : 0 ≤ low) (hlh : low ≤ high) :
    (low ≤ ((partition arr low.toNat high.toNat).2 : Int) ∧
      ((partition arr low.toNat high.toNat).2 : Int) ≤ high) ∧
    ∀ fuel : Nat, (high - low).toNat ≤ fuel →
      quickSort fuel arr low high = quickSort (high - low).toNat arr low high := by
  constructor
  · have hb := partition_pi_bounds arr low.toNat high.toNat (by omega)
    omega
  · intro fuel hfuel
    exact quickSort_fuel_any fuel fuel arr low high (le_refl fuel) h0 hfuel

theorem quickSort_terminates_witness :
    ((0 : Int) ≤ 0 ∧ (0 : Int) ≤ 2) ∧
    ((0 ≤ (((partition [devBodheesh, devAlice, devBob] (0 : Int).toNat (2 : Int).toNat).2 :
        Nat) : Int) ∧
      (((partition [devBodheesh, devAlice, devBob] (0 : Int).toNat (2 : Int).toNat).2 :
        Nat) : Int) ≤ 2) ∧
     quickSort 7 [devBodheesh, devAlice, devBob] 0 2 =
       quickSort ((2 : Int) - 0).toNat [devBodheesh, devAlice, devBob] 0 2) :=
  ⟨⟨by decide, by decide⟩,
   (quickSort_terminates [devBodheesh, devAlice, devBob] 0 2 (by decide) (by decide)).1,
   (quickSort_terminates [devBodheesh, devAlice, devBob] 0 2 (by decide) (by decide)).2
     7 (by decide)⟩

/-! ## Quicksort: a sorted range is a fixed point -/

theorem partitionLoop_sorted_id (pivot : Int) :
    ∀ (cnt : Nat) (arr : List Developer) (j : Nat),
    (∀ k : Nat, j ≤ k → k < j + cnt → pivot ≤ salAt arr k) →
    partitionLoop pivot arr ((j : Int) - 1) j cnt = (arr, (j : Int) + cnt - 1) := by
  intro cnt
  induction cnt with
  | zero =>
    intro arr j hs
    simp only [partitionLoop, Prod.mk.injEq]
    exact ⟨trivial, by omega⟩
  | succ cnt ih =>
    intro arr j hs
    simp only [partitionLoop]
    rw [if_pos (hs j (le_refl j) (by omega))]
    have hidx : (((j : Int) - 1) + 1).toNat = j := by omega
    rw [hidx, swapL_self]
    have harg : ((j : Int) - 1) + 1 = ((j + 1 : Nat) : Int) - 1 := by push_cast; ring
    rw [harg]
    rw [ih arr (j + 1) (fun k hk1 hk2 => hs k (by omega) (by omega))]
    simp only [Prod.mk.injEq]
    exact ⟨trivial, by push_cast; ring⟩

theorem partition_sorted_id (arr : List Developer) (low high : Nat)
    (hlh : low ≤ high)
    (hs : ∀ k : Nat, low ≤ k → k ≤ high → salAt arr high ≤ salAt arr k) :
    partition arr low high = (arr, high) := by
  have hloop := partitionLoop_sorted_id (salAt arr high) (high - low) arr low
    (fun k hk1 hk2 => hs k hk1 (by omega))
  simp only [partition]
  rw [hloop]
  have hidx : (((low : Int) + ((high - low : Nat) : Int) - 1) + 1).toNat = high := by omega
  simp only [Prod.mk.injEq]
  constructor
  · rw [hidx, swapL_self]
  · rw [hidx]

theorem quickSort_sorted_id :
    ∀ (fuel : Nat) (arr : List Developer) (low high : Int),
    0 ≤ low →
    (∀ k1 k2 : Nat, low ≤ (k1 : Int) → k1 ≤ k2 → (k2 : Int) ≤ high →
      salAt arr k2 ≤ salAt arr k1) →
    quickSort fuel arr low high = arr := by
  intro fuel
  induction fuel with
  | zero =>
    intro arr low high h0 hs
    rfl
  | succ fuel ih =>
    intro arr low high h0 hs
    by_cases hlh : low < high
    · have hhigh0 : (0 : Int) ≤ high := by omega
      have hhncast : ((high.toNat : Nat) : Int) = high := Int.toNat_of_nonneg hhigh0
      have hpart := partition_sorted_id arr low.toNat high.toNat (by omega)
        (fun k hk1 hk2 => hs k high.toNat (by omega) hk2 (by omega))
      rw [quickSort_succ fuel arr low high hlh, hpart]
      have hinner : quickSort fuel arr low (((high.toNat : Nat) : Int) - 1) = arr := by
        rw [hhncast]
        exact ih arr low (high - 1) h0
          (fun k1 k2 a b c => hs k1 k2 a b (by omega))
      rw [hinner, hhncast]
      exact quickSort_of_le fuel arr (high + 1) high (by omega)
    · exact quickSort_of_le (fuel + 1) arr low high (by omega)

/-! ## Sorting the Indexed Store: claim C3 -/

theorem getD_eq_getElem_of_lt (l : List Developer) (k : Nat) (hk : k < l.length) :
    l.getD k default = l[k] := by
  rw [List.getD_eq_getElem?_getD, List.getElem?_eq_getElem hk]
  rfl

theorem salaries_sorted_of_pairwise (l : List Developer)
    (h : ∀ k1 k2 : Nat, k1 ≤ k2 → k2 < l.length → salAt l k2 ≤ salAt l k1) :
    List.Sorted (· ≥ ·) (l.map (fun d => d.salary)) := by
  show List.Pairwise _ _
  rw [List.pairwise_iff_get]
  intro i j hij
  simp only [List.get_eq_getElem, List.getElem_map]
  have hi : (i : Nat) < l.length := by
    have h2 := i.2
    simpa using h2
  have hj : (j : Nat) < l.length := by
    have h2 := j.2
    simpa using h2
  have hres := h i j (le_of_lt hij) hj
  simp only [salAt] at hres
  rw [getD_eq_getElem_of_lt l i hi, getD_eq_getElem_of_lt l j hj] at hres
  exact hres

theorem sortDevelopersBySalary_pos (arr : DynamicArray) (h : 1 < arr.size) :
    sortDevelopersBySalary arr =
      { arr with
        developers := quickSort arr.developers.length arr.developers 0 (arr.size - 1) } := by
  simp only [sortDevelopersBySalary]
  rw [if_pos h]

/-- Claim C3: on a well-formed Indexed Store (stored size equal to the
element count) the sort is idempotent, and after one sort the salary
sequence read from index 0 upward is non-increasing. -/
theorem sort_idempotent_and_sorted (arr : DynamicArray)
    (hwf : arr.size = (arr.developers.length : Int)) :
    sortDevelopersBySalary (sortDevelopersBySalary arr) = sortDevelopersBySalary arr ∧
    List.Sorted (· ≥ ·)
      ((sortDevelopersBySalary arr).developers.map (fun d => d.salary)) := by
  by_cases hsz : 1 < arr.size
  · have hs1 := sortDevelopersBySalary_pos arr hsz
    set L1 := quickSort arr.developers.length arr.developers 0 (arr.size - 1) with hL1
    obtain ⟨QL, QU, QM, QS⟩ := quickSort_spec arr.developers.length arr.developers 0
      (arr.size - 1) (le_refl 0) (by omega) (by omega)
    have hs1devs : (sortDevelopersBySalary arr).developers = L1 := by rw [hs1]
    have hs1size : (sortDevelopersBySalary arr).size = arr.size := by rw [hs1]
    have hpair : ∀ k1 k2 : Nat, k1 ≤ k2 → k2 < L1.length → salAt L1 k2 ≤ salAt L1 k1 := by
      intro k1 k2 h12 h2len
      rw [QL] at h2len
      exact QS k1 k2 (by omega) h12 (by omega)
    have hsorted : List.Sorted (· ≥ ·) (L1.map (fun d => d.salary)) :=
      salaries_sorted_of_pairwise L1 hpair
    constructor
    · have hsz2 : 1 < (sortDevelopersBySalary arr).size := by
        rw [hs1size]
        exact hsz
      rw [sortDevelopersBySalary_pos (sortDevelopersBySalary arr) hsz2]
      have hfix : quickSort (sortDevelopersBySalary arr).developers.length
          (sortDevelopersBySalary arr).developers 0
          ((sortDevelopersBySalary arr).size - 1) =
          (sortDevelopersBySalary arr).developers := by
        rw [hs1devs, hs1size]
        exact quickSort_sorted_id L1.length L1 0 (arr.size - 1) (le_refl 0)
          (fun k1 k2 a b c => QS k1 k2 a b c)
      rw [hfix]
    · rw [hs1devs]
      exact hsorted
  · have hid : sortDevelopersBySalary arr = arr := by
      simp only [sortDevelopersBySalary]
      rw [if_neg hsz]
    have hlen1 : arr.developers.length ≤ 1 := by omega
    refine ⟨by rw [hid]; exact hid, ?_⟩
    rw [hid]
    rcases hl : arr.developers with _ | ⟨d, _ | ⟨d2, ds⟩⟩
    · simp
    · simp
    · rw [hl] at hlen1
      simp at hlen1

theorem sort_idempotent_and_sorted_witness :
    ((⟨[devBodheesh, devAlice, devBob, devCarol], 4, 4⟩ : DynamicArray).size =
      (((⟨[devBodheesh, devAlice, devBob, devCarol], 4, 4⟩ :
        DynamicArray).developers.length : Nat) : Int)) ∧
    (sortDevelopersBySalary
        (sortDevelopersBySalary ⟨[devBodheesh, devAlice, devBob, devCarol], 4, 4⟩) =
      sortDevelopersBySalary ⟨[devBodheesh, devAlice, devBob, devCarol], 4, 4⟩ ∧
    List.Sorted (· ≥ ·)
      ((sortDevelopersBySalary
        ⟨[devBodheesh, devAlice, devBob, devCarol], 4, 4⟩).developers.map
          (fun d => d.salary))) :=
  ⟨by decide, sort_idempotent_and_sorted ⟨[devBodheesh, devAlice, devBob, devCarol], 4, 4⟩
    (by decide)⟩

end CDemo
